import Mathlib

/-!
# BusTub `p0_trie.h`: a shallow embedding of the trie and its operations

The header `src/include/primer/p0_trie.h` defines `TrieNode`,
`TrieNodeWithValue<T>` and `Trie` with `Insert`, `Remove` and `GetValue`.

Modelling decisions.

* A key (`std::string`) is a `List Char`.
* `std::unordered_map<char, std::unique_ptr<TrieNode>>` is an association list
  `List (Char × node)`; `find` returns the first entry with the key, `emplace`
  adds an entry when the key is absent, `erase` drops the entries with the key.
* The C++ value types are a family `V : τ → Type` over a type `τ` of type tags
  with decidable equality. A node object is either a plain `TrieNode`
  (`value_ = none`) or a `TrieNodeWithValue<T>` (`value_ = some ⟨T, v⟩`); this
  dynamic class is independent of the flag `is_end_`, exactly as in C++.
* A handle `std::unique_ptr<TrieNode> *` into a children map is modelled by the
  node it points to for reads, and by `TrieNode.store` for the write-back of
  what was mutated through it.
* The latch is not modelled: every operation holds it from entry to exit, so
  the calls are sequential.
-/

namespace bustub

/-! ## The children map -/

/-- The call `children_.find(key_char)`: the mapped node of the first entry with that key,
`none` for `children_.end()`. -/
def mapFind {N : Type} : List (Char × N) → Char → Option N
  | [], _ => none
  | (k, n) :: m, c => if k = c then some n else mapFind m c

/-- The call `children_.emplace(key_char, child)`: a new entry unless the key is present. -/
def mapEmplace {N : Type} (m : List (Char × N)) (c : Char) (child : N) : List (Char × N) :=
  match mapFind m c with
  | some _ => m
  | none => (c, child) :: m

/-- The call `children_.erase(key_char)`. -/
def mapErase {N : Type} : List (Char × N) → Char → List (Char × N)
  | [], _ => []
  | (k, n) :: m, c => if k = c then mapErase m c else (k, n) :: mapErase m c

/-- A write through the handle `&(value->second)` of the entry with key `c`: the mapped
node of that entry is replaced, every other entry is kept. -/
def mapStore {N : Type} : List (Char × N) → Char → N → List (Char × N)
  | [], _, _ => []
  | (k, n) :: m, c, x => if k = c then (k, x) :: m else (k, n) :: mapStore m c x

/-! ## Nodes -/

/-- A node object: the members `key_char_`, `is_end_`, `children_` of `TrieNode`, and
`value_`, which is `some ⟨T, v⟩` exactly when the object is a `TrieNodeWithValue<T>`
holding `v`. -/
inductive TrieNode (τ : Type) (V : τ → Type) where
  | mk (key_char_ : Char) (is_end_ : Bool) (children_ : List (Char × TrieNode τ V))
      (value_ : Option (Sigma V)) : TrieNode τ V

variable {τ : Type} [DecidableEq τ] {V : τ → Type}

namespace TrieNode

/-- Member `key_char_`. -/
def key_char_ : TrieNode τ V → Char
  | mk k _ _ _ => k

/-- Member `is_end_`. -/
def is_end_ : TrieNode τ V → Bool
  | mk _ e _ _ => e

/-- Member `children_`. -/
def children_ : TrieNode τ V → List (Char × TrieNode τ V)
  | mk _ _ m _ => m

/-- Member `value_` of `TrieNodeWithValue<T>` with its type tag; `none` for a plain
`TrieNode` object. -/
def value_ : TrieNode τ V → Option (Sigma V)
  | mk _ _ _ v => v

/-- Constructor `TrieNode(char key_char)`. -/
def new (key_char : Char) : TrieNode τ V :=
  mk key_char false [] none

/-- Method `HasChild`. -/
def HasChild (n : TrieNode τ V) (key_char : Char) : Bool :=
  match mapFind n.children_ key_char with
  | none => false
  | some _ => true

/-- Method `HasChildren`. -/
def HasChildren (n : TrieNode τ V) : Bool :=
  if n.children_.isEmpty then false else true

/-- Method `IsEndNode`. -/
def IsEndNode (n : TrieNode τ V) : Bool :=
  n.is_end_

/-- Method `GetKeyChar`. -/
def GetKeyChar (n : TrieNode τ V) : Char :=
  n.key_char_

/-- Method `GetChildNode`: the node the returned handle points to, `none` for `nullptr`. -/
def GetChildNode (n : TrieNode τ V) (key_char : Char) : Option (TrieNode τ V) :=
  mapFind n.children_ key_char

/-- Method `InsertChildNode`: the node after the call, and the node the returned handle
`&children_[key_char]` points to (`none` for `nullptr`). -/
def InsertChildNode (n : TrieNode τ V) (key_char : Char) (child : TrieNode τ V) :
    TrieNode τ V × Option (TrieNode τ V) :=
  if key_char ≠ child.GetKeyChar ∨ n.HasChild key_char = true then
    (n, none)
  else
    let children := mapEmplace n.children_ key_char child
    (mk n.key_char_ n.is_end_ children n.value_, mapFind children key_char)

/-- Method `RemoveChildNode`. -/
def RemoveChildNode (n : TrieNode τ V) (key_char : Char) : TrieNode τ V :=
  if n.HasChild key_char = false then
    n
  else
    mk n.key_char_ n.is_end_ (mapErase n.children_ key_char) n.value_

/-- Method `SetEndNode`. -/
def SetEndNode (n : TrieNode τ V) (is_end : Bool) : TrieNode τ V :=
  mk n.key_char_ is_end n.children_ n.value_

/-- The node after the object in the slot of its child `key_char` was changed through a
handle: what `GetChildNode(key_char)` points to becomes `child`. -/
def store (n : TrieNode τ V) (key_char : Char) (child : TrieNode τ V) : TrieNode τ V :=
  mk n.key_char_ n.is_end_ (mapStore n.children_ key_char child) n.value_

/-- The expression `dynamic_cast<TrieNodeWithValue<T> *>(node)` followed by `GetValue()`:
the stored value when the object is a `TrieNodeWithValue<T>`, `none` when the cast gives
`nullptr`. -/
def dynamic_cast (n : TrieNode τ V) (t : τ) : Option (V t) :=
  match n.value_ with
  | none => none
  | some ⟨t', v⟩ => if h : t' = t then some (h ▸ v) else none

/-- The node at the end of the path that `key` spells from `n`, every character resolved with
`GetChildNode`; `none` when some character has no matching child. -/
def nodeAt : TrieNode τ V → List Char → Option (TrieNode τ V)
  | n, [] => some n
  | n, ch :: rest =>
    match n.GetChildNode ch with
    | none => none
    | some child => nodeAt child rest

end TrieNode

namespace TrieNodeWithValue

/-- Constructor `TrieNodeWithValue(TrieNode &&trieNode, T value)`: the base is
move-constructed (key character, flag and children of `trieNode`), then `value_` is set
and `is_end_` becomes true. -/
def ofTrieNode (trieNode : TrieNode τ V) (t : τ) (value : V t) : TrieNode τ V :=
  TrieNode.mk trieNode.key_char_ true trieNode.children_ (some ⟨t, value⟩)

/-- Constructor `TrieNodeWithValue(char key_char, T value)`. -/
def new (key_char : Char) (t : τ) (value : V t) : TrieNode τ V :=
  TrieNode.mk key_char true [] (some ⟨t, value⟩)

end TrieNodeWithValue

/-! ## The trie -/

/-- Class `Trie`: the member `root_` (the latch is not modelled). -/
structure Trie (τ : Type) (V : τ → Type) where
  root_ : TrieNode τ V

/-- How a call of `Trie::Insert` ends: `return b`, the `assert(false)` after the loop, or a
use of a null handle `node_ptr`. -/
inductive InsertOutcome where
  | returned (b : Bool)
  | assert_false
  | null_handle
  deriving DecidableEq

namespace Trie

/-- Constructor `Trie()`: the root is `TrieNode(' ')`. -/
def new : Trie τ V :=
  ⟨TrieNode.new ' '⟩

/-- The loop `for (auto ch : key)` of `Trie::Insert`, run on the characters still to visit with
the current `count` and the node `node_ptr` points to. The result is the object in the slot
`node_ptr` after the call and how the call ended. -/
def InsertLoop (t : τ) (value : V t) (str_len : Nat) :
    List Char → Nat → TrieNode τ V → TrieNode τ V × InsertOutcome
  | [], _, node => (node, InsertOutcome.assert_false)
  | ch :: rest, count, node =>
    if count + 1 < str_len then
      let r := node.InsertChildNode ch (TrieNode.new ch)
      let tmp_node_ptr :=
        match r.2 with
        | none => r.1.GetChildNode ch
        | some child => some child
      match tmp_node_ptr with
      | none =>
        (r.1, if rest.isEmpty then InsertOutcome.assert_false else InsertOutcome.null_handle)
      | some child =>
        let r' := InsertLoop t value str_len rest (count + 1) child
        (r.1.store ch r'.1, r'.2)
    else
      match node.GetChildNode ch with
      | none =>
        ((node.InsertChildNode ch (TrieNodeWithValue.new ch t value)).1,
          InsertOutcome.returned true)
      | some end_node =>
        if end_node.IsEndNode = true then
          (node, InsertOutcome.returned false)
        else
          (TrieNodeWithValue.ofTrieNode node t value, InsertOutcome.returned true)

/-- Method `Trie::Insert<T>(key, value)`: the trie after the call and how the call ended. -/
def Insert (trie : Trie τ V) (t : τ) (key : List Char) (value : V t) :
    Trie τ V × InsertOutcome :=
  if key.isEmpty then
    (trie, InsertOutcome.returned false)
  else
    let r := InsertLoop t value key.length key 0 trie.root_
    (⟨r.1⟩, r.2)

/-- Method `Trie::RemoveChildFromTrieNode(node_ptr, key, index)`, with the pair `key`, `index`
given as the characters `key[index..]`: `index == key.size()` is the empty list, `key[index]`
its head, and `index == key.size() - 1` an empty tail. The result is the object in the slot
`node_ptr` after the call and the returned flag. -/
def RemoveChildFromTrieNode : TrieNode τ V → List Char → TrieNode τ V × Bool
  | node, [] => (node, true)
  | node, ch :: rest =>
    if node.HasChild ch = false then
      (node, false)
    else
      match node.GetChildNode ch with
      | none => (node, false)
      | some child =>
        let r := RemoveChildFromTrieNode child rest
        let node1 := node.store ch r.1
        if r.2 = false then
          (node1, false)
        else if r.1.HasChildren = false then
          (node1.RemoveChildNode ch, true)
        else if rest.isEmpty then
          (node1.store ch (r.1.SetEndNode false), true)
        else
          (node1, true)

/-- Method `Trie::Remove(key)`: the trie after the call and the returned flag. -/
def Remove (trie : Trie τ V) (key : List Char) : Trie τ V × Bool :=
  let r := RemoveChildFromTrieNode trie.root_ key
  (⟨r.1⟩, r.2)

/-- The loop `for (auto ch : key)` of `Trie::GetValue<T>`, run on the characters still to visit
with the current `index` and the node `node_ptr` points to; `size` is `key.size()`. The result
is `some v` for `*success = true; return v` and `none` for `*success = false; return {}`. -/
def GetValueLoop (t : τ) (size : Nat) : List Char → Nat → TrieNode τ V → Option (V t)
  | [], _, _ => none
  | ch :: rest, index, node =>
    match node.GetChildNode ch with
    | none => none
    | some child =>
      if index = size - 1 then
        child.dynamic_cast t
      else
        GetValueLoop t size rest (index + 1) child

/-- Method `Trie::GetValue<T>(key, success)`: `some v` when `*success` is set to true and `v` is
returned, `none` when `*success` is set to false. -/
def GetValue (trie : Trie τ V) (t : τ) (key : List Char) : Option (V t) :=
  if key.length = 0 then
    none
  else
    GetValueLoop t key.length key 0 trie.root_

end Trie

/-- Every node of the tree under `n`, which is `n` itself and, through the entries of the
children maps, all its descendants, satisfies `P`. -/
inductive AllNodes (P : TrieNode τ V → Prop) : TrieNode τ V → Prop where
  | mk (n : TrieNode τ V) :
      P n → (∀ c child, (c, child) ∈ n.children_ → AllNodes P child) → AllNodes P n

/-- What the entries of the children map of `n` must satisfy: the key of an entry is the key
character of its node, and a node without children has its terminal flag set. -/
def ChildrenOK (n : TrieNode τ V) : Prop :=
  ∀ c child, (c, child) ∈ n.children_ →
    child.key_char_ = c ∧ (child.HasChildren = false → child.is_end_ = true)

/-- The trie states reachable from the empty trie by calls of `Insert` and `Remove`. -/
inductive Reachable : Trie τ V → Prop where
  | empty : Reachable Trie.new
  | insert (trie : Trie τ V) (t : τ) (key : List Char) (value : V t) :
      Reachable trie → Reachable (trie.Insert t key value).1
  | remove (trie : Trie τ V) (key : List Char) :
      Reachable trie → Reachable (trie.Remove key).1

/-- The trie states reachable from the empty trie by calls of `Insert` alone. -/
inductive ReachableByInsert : Trie τ V → Prop where
  | empty : ReachableByInsert Trie.new
  | insert (trie : Trie τ V) (t : τ) (key : List Char) (value : V t) :
      ReachableByInsert trie → ReachableByInsert (trie.Insert t key value).1

/-! ## A concrete instance: the value types `int` and `std::string` -/

/-- Type tags of two value types. -/
inductive Ty where
  | int
  | string
  deriving DecidableEq

/-- The values of a tagged type. -/
@[reducible] def Ty.denote : Ty → Type
  | Ty.int => Int
  | Ty.string => String

/-- The empty trie over `int` and `std::string` values. -/
def emptyTrie : Trie Ty Ty.denote :=
  Trie.new

/-- The trie after `Insert("ab", 2)` on the empty trie. -/
def trieAb : Trie Ty Ty.denote :=
  (emptyTrie.Insert Ty.int "ab".toList (2 : Int)).1

/-- The trie after `Insert("a", 1)` and `Insert("ab", 2)` on the empty trie. -/
def trieAAb : Trie Ty Ty.denote :=
  ((emptyTrie.Insert Ty.int "a".toList (1 : Int)).1.Insert Ty.int "ab".toList (2 : Int)).1

/-- The trie after `Insert("app", 1)`, `Insert("apple", 2)` and `Insert("applepie", 3)` on the
empty trie. -/
def trieApp : Trie Ty Ty.denote :=
  (((emptyTrie.Insert Ty.int "app".toList (1 : Int)).1.Insert Ty.int "apple".toList
    (2 : Int)).1.Insert Ty.int "applepie".toList (3 : Int)).1

/-- The trie after `Insert("abc", 3)` on the empty trie. -/
def trieAbc : Trie Ty Ty.denote :=
  (emptyTrie.Insert Ty.int "abc".toList (3 : Int)).1

/-- The trie after `Insert("x", 42)` on the empty trie. -/
def trieX : Trie Ty Ty.denote :=
  (emptyTrie.Insert Ty.int "x".toList (42 : Int)).1

end bustub

namespace bustub

variable {τ : Type} {V : τ → Type}

/-! ## Insert into a childless node, then remove -/

theorem InsertLoop_then_Remove_childless (t : τ) (value : V t) (str_len : Nat) :
    ∀ (rest : List Char) (count : Nat) (k : Char) (e : Bool) (val : Option (Sigma V)),
      rest ≠ [] → count + rest.length = str_len →
      (Trie.InsertLoop t value str_len rest count (TrieNode.mk k e [] val)).2
          = InsertOutcome.returned true ∧
        Trie.RemoveChildFromTrieNode
            (Trie.InsertLoop t value str_len rest count (TrieNode.mk k e [] val)).1 rest
          = (TrieNode.mk k e [] val, true) := by
  intro rest
  induction rest with
  | nil => intro _ _ _ _ h; exact absurd rfl h
  | cons ch rest ih =>
    intro count k e val _ hlen
    cases rest with
    | nil =>
      have hc : ¬ (count + 1 < str_len) := by simp at hlen; omega
      simp [Trie.InsertLoop, hc, TrieNode.GetChildNode, TrieNode.children_, mapFind,
        TrieNode.InsertChildNode, TrieNodeWithValue.new, TrieNode.GetKeyChar,
        TrieNode.key_char_, TrieNode.HasChild, mapEmplace, Trie.RemoveChildFromTrieNode,
        TrieNode.store, mapStore, TrieNode.HasChildren, TrieNode.RemoveChildNode, mapErase,
        TrieNode.is_end_, TrieNode.value_]
    | cons c2 rest2 =>
      have hc : count + 1 < str_len := by simp at hlen; omega
      obtain ⟨ih1, ih2⟩ :=
        ih (count + 1) ch false none (by simp) (by simp at hlen ⊢; omega)
      have hstep : Trie.InsertLoop t value str_len (ch :: c2 :: rest2) count
            (TrieNode.mk k e [] val)
          = (TrieNode.mk k e [(ch, (Trie.InsertLoop t value str_len (c2 :: rest2) (count + 1)
                (TrieNode.mk ch false [] none)).1)] val,
              (Trie.InsertLoop t value str_len (c2 :: rest2) (count + 1)
                (TrieNode.mk ch false [] none)).2) := by
        rw [Trie.InsertLoop]
        simp [hc, TrieNode.InsertChildNode, TrieNode.new, TrieNode.GetKeyChar,
          TrieNode.key_char_, TrieNode.HasChild, TrieNode.children_, mapFind, mapEmplace,
          TrieNode.store, mapStore, TrieNode.is_end_, TrieNode.value_]
      rw [hstep]
      refine ⟨ih1, ?_⟩
      rw [Trie.RemoveChildFromTrieNode]
      simp [TrieNode.HasChild, TrieNode.children_, mapFind, TrieNode.GetChildNode, ih2,
        TrieNode.store, mapStore, TrieNode.HasChildren, TrieNode.RemoveChildNode, mapErase,
        TrieNode.key_char_, TrieNode.is_end_, TrieNode.value_]

end bustub

namespace bustub

variable {τ : Type} {V : τ → Type}

/-! ## Lookup follows the path and casts the end node -/

theorem dynamic_cast_eq_some_iff [DecidableEq τ] (n : TrieNode τ V) (t : τ) (v : V t) :
    n.dynamic_cast t = some v ↔ n.value_ = some ⟨t, v⟩ := by
  unfold TrieNode.dynamic_cast
  cases h : n.value_ with
  | none => simp
  | some s =>
    obtain ⟨t', w⟩ := s
    by_cases ht : t' = t
    · subst ht
      simp
    · simp only [ht, dite_false]
      constructor
      · intro hs
        exact absurd hs (by simp)
      · intro hs
        injection hs with hs
        injection hs with h1 _
        exact absurd h1 ht

theorem GetValueLoop_eq_nodeAt [DecidableEq τ] (t : τ) (size : Nat) :
    ∀ (rest : List Char) (index : Nat) (node : TrieNode τ V),
      rest ≠ [] → index + rest.length = size →
      Trie.GetValueLoop t size rest index node
        = (node.nodeAt rest).bind (fun n => n.dynamic_cast t) := by
  intro rest
  induction rest with
  | nil => intro _ _ h; exact absurd rfl h
  | cons ch rest ih =>
    intro index node _ hlen
    rw [Trie.GetValueLoop, TrieNode.nodeAt]
    cases hch : node.GetChildNode ch with
    | none => simp
    | some child =>
      cases rest with
      | nil =>
        have hi : index = size - 1 := by simp at hlen; omega
        simp [hi, TrieNode.nodeAt]
      | cons c2 rest2 =>
        have hi : ¬ (index = size - 1) := by simp at hlen; omega
        simp only [hi, if_false]
        exact ih (index + 1) child (by simp) (by simp at hlen ⊢; omega)

/-! ## Insert, Remove and GetValue on the trie -/

/-- C1, evaluated on the code: in the reachable trie that holds "ab", `Insert("a", 1)` returns
true, and the `GetValue<int>("a")` that follows reports `success = false`; the value went into
the root, the parent of the node of "a". -/
theorem Insert_true_then_GetValue_not_found :
    Reachable trieAb ∧
      (trieAb.Insert Ty.int "a".toList (1 : Int)).2 = InsertOutcome.returned true ∧
      (trieAb.Insert Ty.int "a".toList (1 : Int)).1.GetValue Ty.int "a".toList = none ∧
      (trieAb.Insert Ty.int "a".toList (1 : Int)).1.root_.value_ = some ⟨Ty.int, (1 : Int)⟩ :=
  ⟨Reachable.insert _ _ _ _ Reachable.empty, rfl, rfl, rfl⟩

/-- C2, evaluated on the code: in the reachable trie that holds "a" and "ab", both keys are
found, and `Remove("ab")` returns true and changes `GetValue<int>("a")` from `(1, true)` to
not found: the emptied node of "a" is erased although it is terminal. -/
theorem Remove_erases_terminal_ancestor :
    Reachable trieAAb ∧
      trieAAb.GetValue Ty.int "ab".toList = some (2 : Int) ∧
      trieAAb.GetValue Ty.int "a".toList = some (1 : Int) ∧
      (trieAAb.Remove "ab".toList).2 = true ∧
      (trieAAb.Remove "ab".toList).1.GetValue Ty.int "a".toList = none :=
  ⟨Reachable.insert _ _ _ _ (Reachable.insert _ _ _ _ Reachable.empty), rfl, rfl, rfl, rfl⟩

/-- C3, evaluated on the code: after the inserts of "app", "apple" and "applepie" the node at
the path of "apple" is terminal, `Remove("apple")` returns true and clears the flag of that
node, "app" and "applepie" are still found, and `GetValue<int>("apple")` still returns
`(2, true)`. -/
theorem Remove_kept_node_still_found :
    ReachableByInsert trieApp ∧
      (trieApp.root_.nodeAt "apple".toList).map TrieNode.is_end_ = some true ∧
      (trieApp.Remove "apple".toList).2 = true ∧
      ((trieApp.Remove "apple".toList).1.root_.nodeAt "apple".toList).map TrieNode.is_end_
        = some false ∧
      (trieApp.Remove "apple".toList).1.GetValue Ty.int "app".toList = some (1 : Int) ∧
      (trieApp.Remove "apple".toList).1.GetValue Ty.int "applepie".toList = some (3 : Int) ∧
      (trieApp.Remove "apple".toList).1.GetValue Ty.int "apple".toList = some (2 : Int) :=
  ⟨ReachableByInsert.insert _ _ _ _ (ReachableByInsert.insert _ _ _ _
      (ReachableByInsert.insert _ _ _ _ ReachableByInsert.empty)),
    rfl, rfl, rfl, rfl, rfl, rfl⟩

/-- C4, evaluated on the code: in the reachable trie that holds "ab", `Insert("a", 1)` returns
true and the `Insert("a", 7)` that follows directly returns true as well, replacing the value
1 that the first call put into the root by 7. -/
theorem Insert_same_key_twice_returns_true :
    Reachable trieAb ∧
      (trieAb.Insert Ty.int "a".toList (1 : Int)).2 = InsertOutcome.returned true ∧
      ((trieAb.Insert Ty.int "a".toList (1 : Int)).1.Insert Ty.int "a".toList (7 : Int)).2
        = InsertOutcome.returned true ∧
      (trieAb.Insert Ty.int "a".toList (1 : Int)).1.root_.value_
        = some ⟨Ty.int, (1 : Int)⟩ ∧
      ((trieAb.Insert Ty.int "a".toList (1 : Int)).1.Insert Ty.int "a".toList
        (7 : Int)).1.root_.value_ = some ⟨Ty.int, (7 : Int)⟩ :=
  ⟨Reachable.insert _ _ _ _ Reachable.empty, rfl, rfl, rfl, rfl⟩

/-- C5, evaluated on the code: for every trie state, `Remove("")` returns true and leaves the
trie as it is. -/
theorem Remove_empty_key_returns_true (trie : Trie τ V) :
    trie.Remove [] = (trie, true) := by
  simp [Trie.Remove, Trie.RemoveChildFromTrieNode]

/-- C6, evaluated on the code: in the reachable trie that holds only "ab", the node at the end
of the path of "a" has its terminal flag false, and `Remove("a")` returns true. -/
theorem Remove_non_terminal_key_returns_true :
    Reachable trieAb ∧
      (trieAb.root_.nodeAt "a".toList).map TrieNode.is_end_ = some false ∧
      (trieAb.Remove "a".toList).2 = true :=
  ⟨Reachable.insert _ _ _ _ Reachable.empty, rfl, rfl⟩

/-- C7, evaluated on the code: from the empty trie, `Insert("ab", 2)` and then `Insert("a", 1)`
both return true and `GetValue<int>("ab")` still returns `(2, true)`, but the node at the end
of the path of "a" is still not terminal and carries no value, while the root has become
terminal and carries 1. -/
theorem Insert_strict_prefix_converts_parent :
    (emptyTrie.Insert Ty.int "ab".toList (2 : Int)).2 = InsertOutcome.returned true ∧
      (trieAb.Insert Ty.int "a".toList (1 : Int)).2 = InsertOutcome.returned true ∧
      (trieAb.Insert Ty.int "a".toList (1 : Int)).1.GetValue Ty.int "ab".toList
        = some (2 : Int) ∧
      ((trieAb.Insert Ty.int "a".toList (1 : Int)).1.root_.nodeAt "a".toList).map
        (fun n => (n.is_end_, n.value_)) = some (false, none) ∧
      (trieAb.root_.is_end_, trieAb.root_.value_) = (false, none) ∧
      ((trieAb.Insert Ty.int "a".toList (1 : Int)).1.root_.is_end_,
        (trieAb.Insert Ty.int "a".toList (1 : Int)).1.root_.value_)
        = (true, some ⟨Ty.int, (1 : Int)⟩) :=
  ⟨rfl, rfl, rfl, rfl, rfl, rfl⟩

/-- C8: for every trie state and value, `Insert("", v)` returns false and leaves the trie
unchanged, and for every trie state and requested type, `GetValue<T>("")` sets
`success = false`. -/
theorem empty_key_Insert_false_GetValue_not_found [DecidableEq τ] (trie : Trie τ V) :
    (∀ (t : τ) (v : V t), trie.Insert t [] v = (trie, InsertOutcome.returned false)) ∧
      (∀ t : τ, trie.GetValue t [] = none) := by
  constructor
  · intro t v
    simp [Trie.Insert]
  · intro t
    simp [Trie.GetValue]

/-- C9: for every non-empty key and value, from the empty trie `Insert(k, v)` returns true, the
following `Remove(k)` returns true, and the resulting trie is the empty trie again, whose root
has no children. -/
theorem Insert_then_Remove_from_empty (t : τ) (key : List Char) (value : V t)
    (hkey : key ≠ []) :
    ((Trie.new : Trie τ V).Insert t key value).2 = InsertOutcome.returned true ∧
      ((Trie.new : Trie τ V).Insert t key value).1.Remove key = (Trie.new, true) ∧
      (((Trie.new : Trie τ V).Insert t key value).1.Remove key).1.root_.HasChildren
        = false := by
  obtain ⟨h1, h2⟩ :=
    InsertLoop_then_Remove_childless t value key.length key 0 ' ' false none hkey (by simp)
  have hne : key.isEmpty = false := by
    cases key with
    | nil => exact absurd rfl hkey
    | cons _ _ => rfl
  have hrem : ((Trie.new : Trie τ V).Insert t key value).1.Remove key = (Trie.new, true) := by
    simp [Trie.Insert, hne, Trie.new, TrieNode.new, Trie.Remove, h2]
  refine ⟨?_, hrem, ?_⟩
  · simp only [Trie.Insert, hne, Trie.new, TrieNode.new]
    simpa using h1
  · rw [hrem]
    rfl

/-- C9 at the key "cat" with the `int` value 5. -/
theorem Insert_then_Remove_from_empty_cat :
    "cat".toList ≠ [] ∧
      ((Trie.new : Trie Ty Ty.denote).Insert Ty.int "cat".toList (5 : Int)).2
        = InsertOutcome.returned true ∧
      ((Trie.new : Trie Ty Ty.denote).Insert Ty.int "cat".toList (5 : Int)).1.Remove
        "cat".toList = (Trie.new, true) ∧
      (((Trie.new : Trie Ty Ty.denote).Insert Ty.int "cat".toList (5 : Int)).1.Remove
        "cat".toList).1.root_.HasChildren = false :=
  ⟨List.cons_ne_nil _ _,
    @Insert_then_Remove_from_empty Ty Ty.denote Ty.int "cat".toList (5 : Int)
      (List.cons_ne_nil _ _)⟩

/-- C10, evaluated on the code: in the reachable trie left by `Insert("a", 1)`,
`Insert("ab", 2)` and `Remove("a")`, `GetValue<int>("a")` returns `(1, true)` although the node
at the end of the path has its terminal flag false, so success is not equivalent to a terminal
end node that holds a value of the requested type. -/
theorem GetValue_success_iff_terminal_fails :
    Reachable (trieAAb.Remove "a".toList).1 ∧
      (trieAAb.Remove "a".toList).1.GetValue Ty.int "a".toList = some (1 : Int) ∧
      ((trieAAb.Remove "a".toList).1.root_.nodeAt "a".toList).map TrieNode.is_end_
        = some false ∧
      ¬ ∀ (trie : Trie Ty Ty.denote), Reachable trie → ∀ (t : Ty) (key : List Char),
        ((trie.GetValue t key).isSome = true ↔
          key ≠ [] ∧ ∃ n, trie.root_.nodeAt key = some n ∧ n.is_end_ = true ∧
            ∃ v : Ty.denote t, n.value_ = some ⟨t, v⟩) := by
  have hr : Reachable (trieAAb.Remove "a".toList).1 :=
    Reachable.remove _ _
      (Reachable.insert _ _ _ _ (Reachable.insert _ _ _ _ Reachable.empty))
  have hflag : ((trieAAb.Remove "a".toList).1.root_.nodeAt "a".toList).map TrieNode.is_end_
      = some false := rfl
  refine ⟨hr, rfl, hflag, ?_⟩
  intro h
  have hfound : ((trieAAb.Remove "a".toList).1.GetValue Ty.int "a".toList).isSome = true :=
    rfl
  obtain ⟨_, n, hn, hend, _⟩ := (h _ hr Ty.int "a".toList).mp hfound
  rw [hn] at hflag
  simp [hend] at hflag

/-- What `GetValue` tests: for every trie state, key, type `T` and value `v`, `GetValue<T>(k)`
returns `v` with success if and only if `k` is non-empty, every character of `k` resolves to a
child along the path from the root, and the object at the end of the path is a
`TrieNodeWithValue<T>` that stores `v`. -/
theorem GetValue_eq_some_iff [DecidableEq τ] (trie : Trie τ V) (t : τ) (key : List Char)
    (v : V t) :
    trie.GetValue t key = some v ↔
      key ≠ [] ∧ ∃ n, trie.root_.nodeAt key = some n ∧ n.value_ = some ⟨t, v⟩ := by
  cases key with
  | nil => simp [Trie.GetValue]
  | cons ch rest =>
    have hloop := GetValueLoop_eq_nodeAt t (ch :: rest).length (ch :: rest) 0 trie.root_
      (by simp) (by simp)
    simp only [Trie.GetValue, List.length_cons, Nat.add_one_ne_zero, if_false] at hloop ⊢
    rw [hloop]
    cases hn : trie.root_.nodeAt (ch :: rest) with
    | none => simp
    | some n => simp [dynamic_cast_eq_some_iff]

end bustub

namespace bustub

variable {τ : Type} {V : τ → Type}

/-! ## Facts about the children map -/

theorem HasChild_eq_false_iff (n : TrieNode τ V) (c : Char) :
    n.HasChild c = false ↔ n.GetChildNode c = none := by
  unfold TrieNode.HasChild TrieNode.GetChildNode
  cases mapFind n.children_ c <;> simp

theorem HasChild_eq_true_iff (n : TrieNode τ V) (c : Char) :
    n.HasChild c = true ↔ ∃ child, n.GetChildNode c = some child := by
  unfold TrieNode.HasChild TrieNode.GetChildNode
  cases mapFind n.children_ c <;> simp

theorem mapFind_mem {N : Type} (m : List (Char × N)) (c : Char) (x : N)
    (h : mapFind m c = some x) : (c, x) ∈ m := by
  induction m with
  | nil => simp [mapFind] at h
  | cons e m ih =>
    obtain ⟨k, n⟩ := e
    by_cases hk : k = c
    · subst hk
      simp [mapFind] at h
      simp [h]
    · simp [mapFind, hk] at h
      exact List.mem_cons_of_mem _ (ih h)

theorem mapStore_same {N : Type} (m : List (Char × N)) (c : Char) (x : N)
    (h : mapFind m c = some x) : mapStore m c x = m := by
  induction m with
  | nil => rfl
  | cons e m ih =>
    obtain ⟨k, n⟩ := e
    by_cases hk : k = c
    · simp [mapFind, hk] at h
      simp [mapStore, hk, h]
    · simp [mapFind, hk] at h
      simp [mapStore, hk, ih h]

theorem mapStore_mem {N : Type} (m : List (Char × N)) (c : Char) (x : N) (c' : Char) (y : N)
    (h : (c', y) ∈ mapStore m c x) : (c', y) ∈ m ∨ (c' = c ∧ y = x) := by
  induction m with
  | nil => simp [mapStore] at h
  | cons e m ih =>
    obtain ⟨k, n⟩ := e
    by_cases hk : k = c
    · simp only [mapStore, hk, if_true, List.mem_cons, Prod.mk.injEq] at h
      rcases h with ⟨h1, h2⟩ | h
      · exact Or.inr ⟨h1, h2⟩
      · exact Or.inl (List.mem_cons_of_mem _ h)
    · simp only [mapStore, hk, if_false, List.mem_cons, Prod.mk.injEq] at h
      rcases h with ⟨h1, h2⟩ | h
      · exact Or.inl (by simp [h1, h2])
      · rcases ih h with h | h
        · exact Or.inl (List.mem_cons_of_mem _ h)
        · exact Or.inr h

theorem mapErase_mem {N : Type} (m : List (Char × N)) (c : Char) (c' : Char) (y : N)
    (h : (c', y) ∈ mapErase m c) : (c', y) ∈ m := by
  induction m with
  | nil => simp [mapErase] at h
  | cons e m ih =>
    obtain ⟨k, n⟩ := e
    by_cases hk : k = c
    · simp only [mapErase, hk, if_true] at h
      exact List.mem_cons_of_mem _ (ih h)
    · simp only [mapErase, hk, if_false, List.mem_cons] at h
      rcases h with h | h
      · rw [h]; exact List.mem_cons_self _ _
      · exact List.mem_cons_of_mem _ (ih h)

theorem mapStore_eq_nil_iff {N : Type} (m : List (Char × N)) (c : Char) (x : N) :
    mapStore m c x = [] ↔ m = [] := by
  cases m with
  | nil => simp [mapStore]
  | cons e m =>
    obtain ⟨k, n⟩ := e
    by_cases hk : k = c <;> simp [mapStore, hk]

theorem node_eta (n : TrieNode τ V) :
    TrieNode.mk n.key_char_ n.is_end_ n.children_ n.value_ = n := by
  cases n
  rfl

theorem store_same (n child : TrieNode τ V) (c : Char) (h : n.GetChildNode c = some child) :
    n.store c child = n := by
  unfold TrieNode.store
  rw [mapStore_same _ _ _ h]
  exact node_eta n

end bustub

namespace bustub

variable {τ : Type} {V : τ → Type}

/-! ## One iteration of the loop of `Insert` -/

theorem InsertLoop_inner_found (t : τ) (value : V t) (str_len count : Nat) (ch : Char)
    (rest : List Char) (node child : TrieNode τ V) (hc : count + 1 < str_len)
    (hch : node.GetChildNode ch = some child) :
    Trie.InsertLoop t value str_len (ch :: rest) count node
      = (node.store ch (Trie.InsertLoop t value str_len rest (count + 1) child).1,
          (Trie.InsertLoop t value str_len rest (count + 1) child).2) := by
  have hhas : node.HasChild ch = true := (HasChild_eq_true_iff node ch).mpr ⟨child, hch⟩
  rw [Trie.InsertLoop]
  simp [hc, TrieNode.InsertChildNode, hhas, hch]

theorem InsertLoop_inner_fresh (t : τ) (value : V t) (str_len count : Nat) (ch : Char)
    (rest : List Char) (node : TrieNode τ V) (hc : count + 1 < str_len)
    (hch : node.GetChildNode ch = none) :
    Trie.InsertLoop t value str_len (ch :: rest) count node
      = (TrieNode.mk node.key_char_ node.is_end_
            ((ch, (Trie.InsertLoop t value str_len rest (count + 1) (TrieNode.new ch)).1)
              :: node.children_) node.value_,
          (Trie.InsertLoop t value str_len rest (count + 1) (TrieNode.new ch)).2) := by
  cases node with
  | mk k e m v =>
    have hfind : mapFind m ch = none := hch
    rw [Trie.InsertLoop]
    simp [hc, TrieNode.InsertChildNode, TrieNode.HasChild, TrieNode.new, TrieNode.GetKeyChar,
      TrieNode.key_char_, mapEmplace, hfind, mapFind, TrieNode.store, mapStore,
      TrieNode.children_, TrieNode.is_end_, TrieNode.value_]

theorem InsertLoop_last (t : τ) (value : V t) (str_len count : Nat) (ch : Char)
    (rest : List Char) (node : TrieNode τ V) (hc : ¬ (count + 1 < str_len)) :
    Trie.InsertLoop t value str_len (ch :: rest) count node
      = match node.GetChildNode ch with
        | none =>
          (TrieNode.mk node.key_char_ node.is_end_
              ((ch, TrieNodeWithValue.new ch t value) :: node.children_) node.value_,
            InsertOutcome.returned true)
        | some end_node =>
          if end_node.is_end_ = true then
            (node, InsertOutcome.returned false)
          else
            (TrieNodeWithValue.ofTrieNode node t value, InsertOutcome.returned true) := by
  rw [Trie.InsertLoop]
  simp only [hc, if_false]
  cases hch : node.GetChildNode ch with
  | none =>
    cases node with
    | mk k e m v =>
      have hfind : mapFind m ch = none := hch
      simp [TrieNode.InsertChildNode, TrieNode.HasChild, TrieNodeWithValue.new,
        TrieNode.GetKeyChar, TrieNode.key_char_, mapEmplace, hfind, TrieNode.children_,
        TrieNode.is_end_, TrieNode.value_]
  | some end_node =>
    simp [TrieNode.IsEndNode]

end bustub

namespace bustub

variable {τ : Type} {V : τ → Type}

/-! ## How the loop of `Insert` ends -/

theorem nodeAt_new_cons (k ch : Char) (rest : List Char) :
    (TrieNode.new k : TrieNode τ V).nodeAt (ch :: rest) = none := by
  simp [TrieNode.nodeAt, TrieNode.new, TrieNode.GetChildNode, TrieNode.children_, mapFind]

theorem InsertLoop_outcome (t : τ) (value : V t) (str_len : Nat) :
    ∀ (rest : List Char) (count : Nat) (node : TrieNode τ V),
      rest ≠ [] → count + rest.length = str_len →
      (Trie.InsertLoop t value str_len rest count node).2
        = InsertOutcome.returned
            (match node.nodeAt rest with
              | some n => !n.is_end_
              | none => true) := by
  intro rest
  induction rest with
  | nil => intro _ _ h; exact absurd rfl h
  | cons ch rest ih =>
    intro count node _ hlen
    cases rest with
    | nil =>
      have hc : ¬ (count + 1 < str_len) := by simp at hlen; omega
      rw [InsertLoop_last t value str_len count ch [] node hc]
      cases hch : node.GetChildNode ch with
      | none => simp [TrieNode.nodeAt, hch]
      | some end_node =>
        cases he : end_node.is_end_ <;> simp [TrieNode.nodeAt, hch, he]
    | cons c2 rest2 =>
      have hc : count + 1 < str_len := by simp at hlen; omega
      have hlen2 : count + 1 + (c2 :: rest2).length = str_len := by
        simp at hlen ⊢; omega
      cases hch : node.GetChildNode ch with
      | none =>
        rw [InsertLoop_inner_fresh t value str_len count ch _ node hc hch]
        simp only []
        rw [ih (count + 1) (TrieNode.new ch) (by simp) hlen2, nodeAt_new_cons]
        simp [TrieNode.nodeAt, hch]
      | some child =>
        rw [InsertLoop_inner_found t value str_len count ch _ node child hc hch]
        simp only []
        rw [ih (count + 1) child (by simp) hlen2]
        simp [TrieNode.nodeAt, hch]

theorem InsertLoop_false_unchanged (t : τ) (value : V t) (str_len : Nat) :
    ∀ (rest : List Char) (count : Nat) (node : TrieNode τ V),
      rest ≠ [] → count + rest.length = str_len →
      (Trie.InsertLoop t value str_len rest count node).2 = InsertOutcome.returned false →
      (Trie.InsertLoop t value str_len rest count node).1 = node := by
  intro rest
  induction rest with
  | nil => intro _ _ h; exact absurd rfl h
  | cons ch rest ih =>
    intro count node _ hlen hfalse
    cases rest with
    | nil =>
      have hc : ¬ (count + 1 < str_len) := by simp at hlen; omega
      rw [InsertLoop_last t value str_len count ch [] node hc] at hfalse ⊢
      cases hch : node.GetChildNode ch with
      | none => simp [hch] at hfalse
      | some end_node =>
        cases he : end_node.is_end_ <;> simp [hch, he] at hfalse ⊢
    | cons c2 rest2 =>
      have hc : count + 1 < str_len := by simp at hlen; omega
      have hlen2 : count + 1 + (c2 :: rest2).length = str_len := by
        simp at hlen ⊢; omega
      cases hch : node.GetChildNode ch with
      | none =>
        exfalso
        rw [InsertLoop_outcome t value str_len _ count node (by simp) hlen] at hfalse
        simp [TrieNode.nodeAt, hch] at hfalse
      | some child =>
        rw [InsertLoop_inner_found t value str_len count ch _ node child hc hch] at hfalse ⊢
        simp only [] at hfalse ⊢
        rw [ih (count + 1) child (by simp) hlen2 hfalse]
        exact store_same node child ch hch

end bustub

namespace bustub

variable {τ : Type} {V : τ → Type}

/-! ## A failed removal changes nothing -/

theorem RemoveChildFromTrieNode_false_unchanged :
    ∀ (rest : List Char) (node : TrieNode τ V),
      (Trie.RemoveChildFromTrieNode node rest).2 = false →
      (Trie.RemoveChildFromTrieNode node rest).1 = node := by
  intro rest
  induction rest with
  | nil => intro node h; simp [Trie.RemoveChildFromTrieNode] at h
  | cons ch rest ih =>
    intro node h
    rw [Trie.RemoveChildFromTrieNode] at h ⊢
    cases hhas : node.HasChild ch with
    | false => simp
    | true =>
      simp only [hhas, Bool.true_eq_false, if_false] at h ⊢
      cases hch : node.GetChildNode ch with
      | none => simp
      | some child =>
        simp only [hch] at h ⊢
        cases hr : (Trie.RemoveChildFromTrieNode child rest).2 with
        | false =>
          simp only [hr, if_true]
          rw [ih child hr]
          exact store_same node child ch hch
        | true =>
          exfalso
          simp only [hr, Bool.true_eq_false, if_false] at h
          split at h
          · simp at h
          · split at h <;> simp at h

end bustub

namespace bustub

variable {τ : Type} {V : τ → Type}

/-! ## Lookup with another type, the result of `Insert`, and `InsertChildNode` -/

/-- C11: for every trie state, every non-empty key `k` whose end node stores a value `v` of
type `T`, and every type `U` different from `T`, `GetValue<U>(k)` sets `success = false`. -/
theorem GetValue_other_type_not_found [DecidableEq τ] (trie : Trie τ V) (key : List Char)
    (T U : τ) (v : V T) (n : TrieNode τ V) (hkey : key ≠ [])
    (hn : trie.root_.nodeAt key = some n) (hv : n.value_ = some ⟨T, v⟩) (hne : U ≠ T) :
    trie.GetValue U key = none := by
  have hlen : ¬ (key.length = 0) := by
    cases key with
    | nil => exact absurd rfl hkey
    | cons _ _ => simp
  simp only [Trie.GetValue, hlen, if_false]
  rw [GetValueLoop_eq_nodeAt U key.length key 0 trie.root_ hkey (by simp), hn]
  cases hd : n.dynamic_cast U with
  | none => simp [hd]
  | some w =>
    have hw := (dynamic_cast_eq_some_iff n U w).mp hd
    rw [hv] at hw
    injection hw with hw
    injection hw with h1 _
    exact absurd h1.symm hne

/-- C11 at the example: after `Insert("x", 42)` with an `int` value on the empty trie, the node
of "x" stores 42 as an `int`, and `GetValue<string>("x")` is not found. -/
theorem GetValue_other_type_not_found_x :
    "x".toList ≠ [] ∧
      trieX.root_.nodeAt "x".toList
        = some (TrieNode.mk 'x' true [] (some ⟨Ty.int, (42 : Int)⟩)) ∧
      Ty.string ≠ Ty.int ∧
      trieX.GetValue Ty.string "x".toList = none :=
  ⟨List.cons_ne_nil _ _, rfl, by decide,
    @GetValue_other_type_not_found Ty Ty.denote _ trieX "x".toList Ty.int Ty.string (42 : Int)
      (TrieNode.mk 'x' true [] (some ⟨Ty.int, (42 : Int)⟩)) (List.cons_ne_nil _ _) rfl rfl
      (by decide)⟩

/-- C12: for every trie state, key and value, `Insert(k, v)` returns false if and only if `k`
is empty or a node exists at the end of the full path of `k` with its terminal flag set, and
it returns true in every other case. -/
theorem Insert_returns_false_iff (trie : Trie τ V) (t : τ) (key : List Char) (value : V t) :
    ((trie.Insert t key value).2 = InsertOutcome.returned false ↔
        key = [] ∨ ∃ n, trie.root_.nodeAt key = some n ∧ n.is_end_ = true) ∧
      ((trie.Insert t key value).2 = InsertOutcome.returned true ↔
        ¬ (key = [] ∨ ∃ n, trie.root_.nodeAt key = some n ∧ n.is_end_ = true)) := by
  cases key with
  | nil => simp [Trie.Insert]
  | cons ch rest =>
    have hout := InsertLoop_outcome t value (ch :: rest).length (ch :: rest) 0 trie.root_
      (by simp) (by simp)
    simp only [Trie.Insert, List.isEmpty_cons, Bool.false_eq_true, if_false]
    rw [hout]
    cases hn : trie.root_.nodeAt (ch :: rest) with
    | none => simp
    | some n => cases he : n.is_end_ <;> simp [he]

/-- C13: `InsertChildNode(c, ch)` on a node `n` returns `nullptr` exactly when `n` already has a
child keyed by `c` or the key character of `ch` differs from `c`, and then `n` is unchanged;
otherwise the children map afterwards is the old map plus the entry `c -> ch`, every other
lookup is as before, `HasChild(c)` is true, the returned handle refers to `ch`, and the other
members of `n` are unchanged. -/
theorem InsertChildNode_spec (n : TrieNode τ V) (c : Char) (ch : TrieNode τ V) :
    ((n.InsertChildNode c ch).2 = none ↔ (n.HasChild c = true ∨ ch.GetKeyChar ≠ c)) ∧
      (if n.HasChild c = true ∨ ch.GetKeyChar ≠ c then
        (n.InsertChildNode c ch).1 = n
      else
        (n.InsertChildNode c ch).2 = some ch ∧
          (n.InsertChildNode c ch).1.children_ = (c, ch) :: n.children_ ∧
          (∀ c', (n.InsertChildNode c ch).1.GetChildNode c'
            = if c' = c then some ch else n.GetChildNode c') ∧
          (n.InsertChildNode c ch).1.HasChild c = true ∧
          (n.InsertChildNode c ch).1.key_char_ = n.key_char_ ∧
          (n.InsertChildNode c ch).1.is_end_ = n.is_end_ ∧
          (n.InsertChildNode c ch).1.value_ = n.value_) := by
  cases n with
  | mk k e m v =>
    by_cases hkey : ch.GetKeyChar = c
    · cases hfind : mapFind m c with
      | some x =>
        simp [TrieNode.InsertChildNode, TrieNode.HasChild, TrieNode.children_, hfind]
      | none =>
        simp only [TrieNode.InsertChildNode, TrieNode.HasChild, TrieNode.children_, hfind,
          hkey, mapEmplace, TrieNode.GetChildNode, TrieNode.key_char_, TrieNode.is_end_,
          TrieNode.value_, mapFind]
        simp
        constructor
        · intro c'
          by_cases hc : c' = c
          · simp [hc, mapFind]
          · have hc2 : ¬ (c = c') := fun h => hc h.symm
            simp [hc, hc2, mapFind]
        · simp [mapFind]
    · have hkey2 : ¬ (c = ch.GetKeyChar) := fun h => hkey h.symm
      simp [TrieNode.InsertChildNode, hkey, hkey2]

end bustub

namespace bustub

variable {τ : Type} {V : τ → Type}

/-! ## Properties of all nodes of a tree -/

theorem AllNodes_mono {P Q : TrieNode τ V → Prop} (hPQ : ∀ n, P n → Q n) (n : TrieNode τ V)
    (h : AllNodes P n) : AllNodes Q n := by
  induction h with
  | mk n hP _ ih => exact AllNodes.mk n (hPQ n hP) ih

theorem AllNodes_here {P : TrieNode τ V → Prop} (n : TrieNode τ V) (h : AllNodes P n) :
    P n := by
  cases h with
  | mk _ hP _ => exact hP

theorem AllNodes_child {P : TrieNode τ V → Prop} (n : TrieNode τ V) (h : AllNodes P n)
    (c : Char) (child : TrieNode τ V) (hmem : (c, child) ∈ n.children_) :
    AllNodes P child := by
  cases h with
  | mk _ _ hch => exact hch c child hmem

theorem AllNodes_nodeAt {P : TrieNode τ V → Prop} :
    ∀ (p : List Char) (n x : TrieNode τ V), AllNodes P n → n.nodeAt p = some x →
      AllNodes P x := by
  intro p
  induction p with
  | nil =>
    intro n x h hx
    simp [TrieNode.nodeAt] at hx
    rw [← hx]
    exact h
  | cons c p ih =>
    intro n x h hx
    rw [TrieNode.nodeAt] at hx
    cases hch : n.GetChildNode c with
    | none => simp [hch] at hx
    | some child =>
      simp only [hch] at hx
      exact ih child x (AllNodes_child n h c child (mapFind_mem _ _ _ hch)) hx

theorem nodeAt_append :
    ∀ (p q : List Char) (n x : TrieNode τ V), n.nodeAt p = some x →
      n.nodeAt (p ++ q) = x.nodeAt q := by
  intro p
  induction p with
  | nil =>
    intro q n x hx
    simp [TrieNode.nodeAt] at hx
    simp [hx]
  | cons c p ih =>
    intro q n x hx
    rw [TrieNode.nodeAt] at hx
    rw [List.cons_append, TrieNode.nodeAt]
    cases hch : n.GetChildNode c with
    | none => simp [hch] at hx
    | some child =>
      simp only [hch] at hx ⊢
      exact ih q child x hx

theorem HasChildren_eq_false_iff (n : TrieNode τ V) :
    n.HasChildren = false ↔ n.children_ = [] := by
  unfold TrieNode.HasChildren
  cases n.children_ <;> simp

theorem AllNodes_ChildrenOK_of_children_eq (n n2 : TrieNode τ V)
    (h : AllNodes ChildrenOK n) (heq : n2.children_ = n.children_) :
    AllNodes ChildrenOK n2 := by
  refine AllNodes.mk n2 ?_ ?_
  · intro c child hmem
    rw [heq] at hmem
    exact AllNodes_here n h c child hmem
  · intro c child hmem
    rw [heq] at hmem
    exact AllNodes_child n h c child hmem

end bustub

namespace bustub

variable {τ : Type} {V : τ → Type}

/-! ## `Insert` keeps the children maps well formed -/

theorem InsertLoop_key_char (t : τ) (value : V t) (str_len : Nat) :
    ∀ (rest : List Char) (count : Nat) (node : TrieNode τ V),
      (Trie.InsertLoop t value str_len rest count node).1.key_char_ = node.key_char_ := by
  intro rest
  induction rest with
  | nil => intro count node; simp [Trie.InsertLoop]
  | cons ch rest _ =>
    intro count node
    by_cases hc : count + 1 < str_len
    · cases hch : node.GetChildNode ch with
      | none =>
        rw [InsertLoop_inner_fresh t value str_len count ch rest node hc hch]
        simp [TrieNode.key_char_]
      | some child =>
        rw [InsertLoop_inner_found t value str_len count ch rest node child hc hch]
        simp [TrieNode.store, TrieNode.key_char_]
    · rw [InsertLoop_last t value str_len count ch rest node hc]
      cases hch : node.GetChildNode ch with
      | none => simp [TrieNode.key_char_]
      | some end_node =>
        cases he : end_node.is_end_ <;>
          simp [he, TrieNodeWithValue.ofTrieNode, TrieNode.key_char_]

theorem GetChildNode_some_children_ne_nil (node child : TrieNode τ V) (ch : Char)
    (hch : node.GetChildNode ch = some child) : node.children_ ≠ [] := by
  intro h
  simp [TrieNode.GetChildNode, h, mapFind] at hch

theorem InsertLoop_children_ne_nil (t : τ) (value : V t) (str_len : Nat) (ch : Char)
    (rest : List Char) (count : Nat) (node : TrieNode τ V) :
    (Trie.InsertLoop t value str_len (ch :: rest) count node).1.children_ ≠ [] := by
  by_cases hc : count + 1 < str_len
  · cases hch : node.GetChildNode ch with
    | none =>
      rw [InsertLoop_inner_fresh t value str_len count ch rest node hc hch]
      simp [TrieNode.children_]
    | some child =>
      rw [InsertLoop_inner_found t value str_len count ch rest node child hc hch]
      simp only [TrieNode.store, TrieNode.children_]
      intro h
      exact GetChildNode_some_children_ne_nil node child ch hch
        ((mapStore_eq_nil_iff _ _ _).mp h)
  · rw [InsertLoop_last t value str_len count ch rest node hc]
    cases hch : node.GetChildNode ch with
    | none => simp [TrieNode.children_]
    | some end_node =>
      have hne := GetChildNode_some_children_ne_nil node end_node ch hch
      cases he : end_node.is_end_
      · simp only [he, Bool.false_eq_true, if_false]
        exact hne
      · simp only [he, if_true]
        exact hne

theorem AllNodes_ChildrenOK_leaf (k : Char) (e : Bool) (v : Option (Sigma V)) :
    AllNodes ChildrenOK (TrieNode.mk k e [] v : TrieNode τ V) := by
  refine AllNodes.mk _ ?_ ?_
  · intro c child hmem
    simp [TrieNode.children_] at hmem
  · intro c child hmem
    simp [TrieNode.children_] at hmem

theorem AllNodes_ChildrenOK_cons (node child : TrieNode τ V) (ch : Char)
    (h : AllNodes ChildrenOK node) (hchild : AllNodes ChildrenOK child)
    (hkey : child.key_char_ = ch) (hend : child.HasChildren = false → child.is_end_ = true) :
    AllNodes ChildrenOK
      (TrieNode.mk node.key_char_ node.is_end_ ((ch, child) :: node.children_)
        node.value_) := by
  refine AllNodes.mk _ ?_ ?_
  · intro c x hmem
    simp only [TrieNode.children_, List.mem_cons, Prod.mk.injEq] at hmem
    rcases hmem with ⟨h1, h2⟩ | hmem
    · rw [h1, h2]
      exact ⟨hkey, hend⟩
    · exact AllNodes_here node h c x hmem
  · intro c x hmem
    simp only [TrieNode.children_, List.mem_cons, Prod.mk.injEq] at hmem
    rcases hmem with ⟨_, h2⟩ | hmem
    · rw [h2]
      exact hchild
    · exact AllNodes_child node h c x hmem

theorem AllNodes_ChildrenOK_store (node child : TrieNode τ V) (ch : Char)
    (h : AllNodes ChildrenOK node) (hchild : AllNodes ChildrenOK child)
    (hkey : child.key_char_ = ch) (hend : child.HasChildren = false → child.is_end_ = true) :
    AllNodes ChildrenOK (node.store ch child) := by
  refine AllNodes.mk _ ?_ ?_
  · intro c x hmem
    simp only [TrieNode.store, TrieNode.children_] at hmem
    rcases mapStore_mem _ _ _ _ _ hmem with hmem | ⟨h1, h2⟩
    · exact AllNodes_here node h c x hmem
    · rw [h1, h2]
      exact ⟨hkey, hend⟩
  · intro c x hmem
    simp only [TrieNode.store, TrieNode.children_] at hmem
    rcases mapStore_mem _ _ _ _ _ hmem with hmem | ⟨_, h2⟩
    · exact AllNodes_child node h c x hmem
    · rw [h2]
      exact hchild

theorem InsertLoop_ChildrenOK (t : τ) (value : V t) (str_len : Nat) :
    ∀ (rest : List Char) (count : Nat) (node : TrieNode τ V),
      rest ≠ [] → count + rest.length = str_len → AllNodes ChildrenOK node →
      AllNodes ChildrenOK (Trie.InsertLoop t value str_len rest count node).1 := by
  intro rest
  induction rest with
  | nil => intro _ _ h; exact absurd rfl h
  | cons ch rest ih =>
    intro count node _ hlen hnode
    cases rest with
    | nil =>
      have hc : ¬ (count + 1 < str_len) := by simp at hlen; omega
      rw [InsertLoop_last t value str_len count ch [] node hc]
      cases hch : node.GetChildNode ch with
      | none =>
        exact AllNodes_ChildrenOK_cons node _ ch hnode (AllNodes_ChildrenOK_leaf _ _ _) rfl
          (fun _ => rfl)
      | some end_node =>
        cases he : end_node.is_end_
        · simp only [he, Bool.false_eq_true, if_false]
          exact AllNodes_ChildrenOK_of_children_eq node _ hnode rfl
        · simp only [he, if_true]
          exact hnode
    | cons c2 rest2 =>
      have hc : count + 1 < str_len := by simp at hlen; omega
      have hlen2 : count + 1 + (c2 :: rest2).length = str_len := by
        simp at hlen ⊢; omega
      have hdangling : ∀ child : TrieNode τ V,
          (Trie.InsertLoop t value str_len (c2 :: rest2) (count + 1) child).1.HasChildren
              = false →
            (Trie.InsertLoop t value str_len (c2 :: rest2) (count + 1) child).1.is_end_
              = true := by
        intro child h
        exact absurd ((HasChildren_eq_false_iff _).mp h)
          (InsertLoop_children_ne_nil t value str_len c2 rest2 (count + 1) child)
      cases hch : node.GetChildNode ch with
      | none =>
        rw [InsertLoop_inner_fresh t value str_len count ch _ node hc hch]
        refine AllNodes_ChildrenOK_cons node _ ch hnode
          (ih (count + 1) (TrieNode.new ch) (by simp) hlen2 (AllNodes_ChildrenOK_leaf _ _ _))
          ?_ (hdangling _)
        rw [InsertLoop_key_char]
        rfl
      | some child =>
        have hmem := mapFind_mem _ _ _ hch
        rw [InsertLoop_inner_found t value str_len count ch _ node child hc hch]
        refine AllNodes_ChildrenOK_store node _ ch hnode
          (ih (count + 1) child (by simp) hlen2 (AllNodes_child node hnode ch child hmem))
          ?_ (hdangling _)
        rw [InsertLoop_key_char]
        exact (AllNodes_here node hnode ch child hmem).1

end bustub

namespace bustub

variable {τ : Type} {V : τ → Type}

/-! ## `Remove` keeps the children maps well formed -/

theorem mapErase_mem_ne {N : Type} (m : List (Char × N)) (c : Char) (c' : Char) (y : N)
    (h : (c', y) ∈ mapErase m c) : c' ≠ c := by
  induction m with
  | nil => simp [mapErase] at h
  | cons e m ih =>
    obtain ⟨k, n⟩ := e
    by_cases hk : k = c
    · simp only [mapErase, hk, if_true] at h
      exact ih h
    · simp only [mapErase, hk, if_false, List.mem_cons, Prod.mk.injEq] at h
      rcases h with ⟨h1, _⟩ | h
      · rw [h1]; exact hk
      · exact ih h

theorem mapErase_absent {N : Type} (m : List (Char × N)) (c : Char)
    (h : mapFind m c = none) : mapErase m c = m := by
  induction m with
  | nil => rfl
  | cons e m ih =>
    obtain ⟨k, n⟩ := e
    by_cases hk : k = c
    · simp [mapFind, hk] at h
    · simp only [mapFind, hk, if_false] at h
      simp [mapErase, hk, ih h]

theorem RemoveChildNode_eq (n : TrieNode τ V) (c : Char) :
    n.RemoveChildNode c
      = TrieNode.mk n.key_char_ n.is_end_ (mapErase n.children_ c) n.value_ := by
  unfold TrieNode.RemoveChildNode
  cases hhas : n.HasChild c with
  | true => simp
  | false =>
    have hfind : mapFind n.children_ c = none := (HasChild_eq_false_iff n c).mp hhas
    simp only [if_true]
    rw [mapErase_absent _ _ hfind]
    exact (node_eta n).symm

theorem Remove_cons_absent (node : TrieNode τ V) (ch : Char) (rest : List Char)
    (hch : node.GetChildNode ch = none) :
    Trie.RemoveChildFromTrieNode node (ch :: rest) = (node, false) := by
  have hhas : node.HasChild ch = false := (HasChild_eq_false_iff node ch).mpr hch
  rw [Trie.RemoveChildFromTrieNode]
  simp [hhas]

theorem Remove_cons_found (node child : TrieNode τ V) (ch : Char) (rest : List Char)
    (hch : node.GetChildNode ch = some child) :
    Trie.RemoveChildFromTrieNode node (ch :: rest)
      = if (Trie.RemoveChildFromTrieNode child rest).2 = false then
          (node.store ch (Trie.RemoveChildFromTrieNode child rest).1, false)
        else if (Trie.RemoveChildFromTrieNode child rest).1.HasChildren = false then
          ((node.store ch (Trie.RemoveChildFromTrieNode child rest).1).RemoveChildNode ch,
            true)
        else if rest.isEmpty then
          ((node.store ch (Trie.RemoveChildFromTrieNode child rest).1).store ch
            ((Trie.RemoveChildFromTrieNode child rest).1.SetEndNode false), true)
        else
          (node.store ch (Trie.RemoveChildFromTrieNode child rest).1, true) := by
  have hhas : node.HasChild ch = true := (HasChild_eq_true_iff node ch).mpr ⟨child, hch⟩
  rw [Trie.RemoveChildFromTrieNode]
  simp only [hhas, Bool.true_eq_false, if_false, hch]

theorem Remove_key_char :
    ∀ (rest : List Char) (node : TrieNode τ V),
      (Trie.RemoveChildFromTrieNode node rest).1.key_char_ = node.key_char_ := by
  intro rest
  cases rest with
  | nil => intro node; simp [Trie.RemoveChildFromTrieNode]
  | cons ch rest =>
    intro node
    cases hch : node.GetChildNode ch with
    | none => rw [Remove_cons_absent node ch rest hch]
    | some child =>
      rw [Remove_cons_found node child ch rest hch]
      split
      · simp [TrieNode.store, TrieNode.key_char_]
      · split
        · simp [RemoveChildNode_eq, TrieNode.store, TrieNode.key_char_]
        · split <;> simp [TrieNode.store, TrieNode.key_char_]

theorem Remove_ChildrenOK :
    ∀ (rest : List Char) (node : TrieNode τ V), AllNodes ChildrenOK node →
      AllNodes ChildrenOK (Trie.RemoveChildFromTrieNode node rest).1 := by
  intro rest
  induction rest with
  | nil => intro node h; simpa [Trie.RemoveChildFromTrieNode] using h
  | cons ch rest ih =>
    intro node hnode
    cases hch : node.GetChildNode ch with
    | none =>
      rw [Remove_cons_absent node ch rest hch]
      exact hnode
    | some child =>
      have hmem := mapFind_mem _ _ _ hch
      have hchild := ih child (AllNodes_child node hnode ch child hmem)
      have hkey : (Trie.RemoveChildFromTrieNode child rest).1.key_char_ = ch := by
        rw [Remove_key_char]
        exact (AllNodes_here node hnode ch child hmem).1
      rw [Remove_cons_found node child ch rest hch]
      split
      · next hfalse =>
        rw [RemoveChildFromTrieNode_false_unchanged rest child hfalse, store_same node child ch hch]
        exact hnode
      · split
        · rw [RemoveChildNode_eq]
          refine AllNodes.mk _ ?_ ?_
          · intro c x hmem2
            simp only [TrieNode.store, TrieNode.children_] at hmem2
            have hne := mapErase_mem_ne _ _ _ _ hmem2
            rcases mapStore_mem _ _ _ _ _ (mapErase_mem _ _ _ _ hmem2) with h1 | ⟨h1, _⟩
            · exact AllNodes_here node hnode c x h1
            · exact absurd h1 hne
          · intro c x hmem2
            simp only [TrieNode.store, TrieNode.children_] at hmem2
            have hne := mapErase_mem_ne _ _ _ _ hmem2
            rcases mapStore_mem _ _ _ _ _ (mapErase_mem _ _ _ _ hmem2) with h1 | ⟨h1, _⟩
            · exact AllNodes_child node hnode c x h1
            · exact absurd h1 hne
        · next hhas =>
          have hend : (Trie.RemoveChildFromTrieNode child rest).1.HasChildren = false →
              (Trie.RemoveChildFromTrieNode child rest).1.is_end_ = true :=
            fun h => absurd h hhas
          have hstored := AllNodes_ChildrenOK_store node _ ch hnode hchild hkey hend
          split
          · refine AllNodes_ChildrenOK_store _ _ ch hstored
              (AllNodes_ChildrenOK_of_children_eq _ _ hchild rfl) hkey ?_
            intro h
            exact absurd h hhas
          · exact hstored

end bustub

namespace bustub

variable {τ : Type} {V : τ → Type}

/-! ## Reachable tries -/

theorem Reachable_ChildrenOK (trie : Trie τ V) (h : Reachable trie) :
    AllNodes ChildrenOK trie.root_ := by
  induction h with
  | empty => exact AllNodes_ChildrenOK_leaf _ _ _
  | insert trie t key value _ ih =>
    cases key with
    | nil => simpa [Trie.Insert] using ih
    | cons ch rest =>
      simp only [Trie.Insert, List.isEmpty_cons, Bool.false_eq_true, if_false]
      exact InsertLoop_ChildrenOK t value _ (ch :: rest) 0 trie.root_ (by simp) (by simp) ih
  | remove trie key _ ih =>
    exact Remove_ChildrenOK key trie.root_ ih

theorem nodeAt_not_dangling :
    ∀ (p : List Char) (root n : TrieNode τ V), AllNodes ChildrenOK root → p ≠ [] →
      root.nodeAt p = some n → n.HasChildren = false → n.is_end_ = true := by
  intro p
  induction p with
  | nil => intro _ _ _ h; exact absurd rfl h
  | cons c p ih =>
    intro root n hroot _ hn
    rw [TrieNode.nodeAt] at hn
    cases hch : root.GetChildNode c with
    | none => simp [hch] at hn
    | some child =>
      simp only [hch] at hn
      have hmem := mapFind_mem _ _ _ hch
      cases p with
      | nil =>
        simp only [TrieNode.nodeAt, Option.some.injEq] at hn
        rw [← hn]
        exact (AllNodes_here root hroot c child hmem).2
      | cons c2 p2 =>
        exact ih child n (AllNodes_child root hroot c child hmem) (by simp) hn

theorem terminal_below (n : TrieNode τ V) (h : AllNodes ChildrenOK n)
    (hend : n.HasChildren = false → n.is_end_ = true) :
    ∃ q e, n.nodeAt q = some e ∧ e.is_end_ = true := by
  induction h with
  | mk n hP _ ih =>
    cases hm : n.children_ with
    | nil =>
      exact ⟨[], n, rfl, hend ((HasChildren_eq_false_iff n).mpr hm)⟩
    | cons entry m =>
      obtain ⟨c, child⟩ := entry
      have hmem : (c, child) ∈ n.children_ := by
        rw [hm]
        exact List.mem_cons_self _ _
      obtain ⟨q, e, hq, he⟩ := ih c child hmem (hP c child hmem).2
      refine ⟨c :: q, e, ?_, he⟩
      have hch : n.GetChildNode c = some child := by
        simp [TrieNode.GetChildNode, hm, mapFind]
      rw [TrieNode.nodeAt]
      simp only [hch]
      exact hq

end bustub

namespace bustub

variable {τ : Type} {V : τ → Type}

/-! ## Invariants of reachable tries, and the frame of `Insert` and `Remove` -/

/-- C14, evaluated on the code: in the reachable trie left by `Insert("a", 1)`,
`Insert("ab", 2)` and `Remove("a")`, the node of "a" is a value-carrying node holding 1 whose
terminal flag is false, so not every node has its flag set exactly when it carries a value. -/
theorem Remove_leaves_value_node_unflagged :
    Reachable (trieAAb.Remove "a".toList).1 ∧
      ((trieAAb.Remove "a".toList).1.root_.nodeAt "a".toList).map
        (fun n => (n.is_end_, n.value_)) = some (false, some ⟨Ty.int, (1 : Int)⟩) ∧
      ¬ AllNodes (fun n => (n.is_end_ = true ↔ n.value_.isSome = true))
        (trieAAb.Remove "a".toList).1.root_ := by
  refine ⟨Reachable.remove _ _
      (Reachable.insert _ _ _ _ (Reachable.insert _ _ _ _ Reachable.empty)), rfl, ?_⟩
  intro h
  have hn : (trieAAb.Remove "a".toList).1.root_.nodeAt "a".toList
      = some (TrieNode.mk 'a' false
          [('b', TrieNode.mk 'b' true [] (some ⟨Ty.int, (2 : Int)⟩))]
          (some ⟨Ty.int, (1 : Int)⟩)) := rfl
  have hP := AllNodes_here _ (AllNodes_nodeAt _ _ _ h hn)
  simp [TrieNode.is_end_, TrieNode.value_] at hP

/-- C15, evaluated on the code: in the reachable trie left by `Insert("ab", 2)` and
`Insert("a", 1)`, the root has its terminal flag set and carries the value 1. -/
theorem Insert_makes_root_value_node :
    Reachable (trieAb.Insert Ty.int "a".toList (1 : Int)).1 ∧
      (trieAb.Insert Ty.int "a".toList (1 : Int)).1.root_.is_end_ = true ∧
      (trieAb.Insert Ty.int "a".toList (1 : Int)).1.root_.value_
        = some ⟨Ty.int, (1 : Int)⟩ :=
  ⟨Reachable.insert _ _ _ _ (Reachable.insert _ _ _ _ Reachable.empty), rfl, rfl⟩

/-- C16: in every reachable trie, for every node and every entry `c -> child` of its children
map, the key character of `child` equals `c`; in particular this holds for the node at the end
of every path and every child that `GetChildNode` finds there. -/
theorem children_keys_match (trie : Trie τ V) (h : Reachable trie) :
    AllNodes (fun n => ∀ c child, (c, child) ∈ n.children_ → child.GetKeyChar = c)
        trie.root_ ∧
      ∀ (p : List Char) (n : TrieNode τ V) (c : Char) (child : TrieNode τ V),
        trie.root_.nodeAt p = some n → n.GetChildNode c = some child →
        child.GetKeyChar = c := by
  have hinv := Reachable_ChildrenOK trie h
  constructor
  · exact AllNodes_mono (fun n hn c child hmem => (hn c child hmem).1) _ hinv
  · intro p n c child hn hch
    exact (AllNodes_here n (AllNodes_nodeAt p _ n hinv hn) c child
      (mapFind_mem _ _ _ hch)).1

/-- C16 on the trie that holds "app", "apple" and "applepie". -/
theorem children_keys_match_app :
    Reachable trieApp ∧
      AllNodes (fun n => ∀ c child, (c, child) ∈ n.children_ → child.GetKeyChar = c)
        trieApp.root_ ∧
      ∀ (p : List Char) (n : TrieNode Ty Ty.denote) (c : Char)
        (child : TrieNode Ty Ty.denote),
        trieApp.root_.nodeAt p = some n → n.GetChildNode c = some child →
        child.GetKeyChar = c :=
  ⟨Reachable.insert _ _ _ _ (Reachable.insert _ _ _ _
      (Reachable.insert _ _ _ _ Reachable.empty)),
    children_keys_match trieApp (Reachable.insert _ _ _ _ (Reachable.insert _ _ _ _
      (Reachable.insert _ _ _ _ Reachable.empty)))⟩

/-- C17: in every reachable trie, every non-root node that has no children has its terminal
flag set, and every non-root node lies on the path of a key whose end node is terminal. -/
theorem no_dangling_nodes (trie : Trie τ V) (h : Reachable trie) :
    AllNodes (fun n => ∀ c child, (c, child) ∈ n.children_ →
        child.HasChildren = false → child.is_end_ = true) trie.root_ ∧
      (∀ (p : List Char) (n : TrieNode τ V), p ≠ [] → trie.root_.nodeAt p = some n →
        n.HasChildren = false → n.is_end_ = true) ∧
      ∀ (p : List Char) (n : TrieNode τ V), p ≠ [] → trie.root_.nodeAt p = some n →
        ∃ q e, trie.root_.nodeAt (p ++ q) = some e ∧ e.is_end_ = true := by
  have hinv := Reachable_ChildrenOK trie h
  refine ⟨?_, ?_, ?_⟩
  · exact AllNodes_mono (fun n hn c child hmem => (hn c child hmem).2) _ hinv
  · intro p n hp hn
    exact nodeAt_not_dangling p _ n hinv hp hn
  · intro p n hp hn
    obtain ⟨q, e, hq, he⟩ := terminal_below n (AllNodes_nodeAt p _ n hinv hn)
      (nodeAt_not_dangling p _ n hinv hp hn)
    exact ⟨q, e, by rw [nodeAt_append p q _ n hn]; exact hq, he⟩

/-- C17 on the trie left by `Insert("app")`, `Insert("apple")`, `Insert("applepie")` and
`Remove("apple")`. -/
theorem no_dangling_nodes_app :
    Reachable (trieApp.Remove "apple".toList).1 ∧
      AllNodes (fun n => ∀ c child, (c, child) ∈ n.children_ →
        child.HasChildren = false → child.is_end_ = true)
        (trieApp.Remove "apple".toList).1.root_ ∧
      (∀ (p : List Char) (n : TrieNode Ty Ty.denote), p ≠ [] →
        (trieApp.Remove "apple".toList).1.root_.nodeAt p = some n →
        n.HasChildren = false → n.is_end_ = true) ∧
      ∀ (p : List Char) (n : TrieNode Ty Ty.denote), p ≠ [] →
        (trieApp.Remove "apple".toList).1.root_.nodeAt p = some n →
        ∃ q e, (trieApp.Remove "apple".toList).1.root_.nodeAt (p ++ q) = some e ∧
          e.is_end_ = true :=
  ⟨Reachable.remove _ _ (Reachable.insert _ _ _ _ (Reachable.insert _ _ _ _
      (Reachable.insert _ _ _ _ Reachable.empty))),
    no_dangling_nodes _ (Reachable.remove _ _ (Reachable.insert _ _ _ _
      (Reachable.insert _ _ _ _ (Reachable.insert _ _ _ _ Reachable.empty))))⟩

/-- C19, evaluated on the code: in the reachable trie that holds only "abc", the key "a" is not
found; `Insert("ab", 2)` returns true and afterwards `GetValue<int>("a")` returns `(2, true)`,
while "ab" itself is not found. -/
theorem Insert_makes_other_key_found :
    Reachable trieAbc ∧
      "a".toList ≠ "ab".toList ∧
      trieAbc.GetValue Ty.int "a".toList = none ∧
      (trieAbc.Insert Ty.int "ab".toList (2 : Int)).2 = InsertOutcome.returned true ∧
      (trieAbc.Insert Ty.int "ab".toList (2 : Int)).1.GetValue Ty.int "a".toList
        = some (2 : Int) ∧
      (trieAbc.Insert Ty.int "ab".toList (2 : Int)).1.GetValue Ty.int "ab".toList = none :=
  ⟨Reachable.insert _ _ _ _ Reachable.empty, by decide, rfl, rfl, rfl, rfl⟩

/-- C20: for every trie state and every key, a call `Insert(k, v)` that returns false leaves
the whole trie unchanged, and a call `Remove(k)` that returns false leaves the whole trie
unchanged. -/
theorem failed_call_leaves_trie_unchanged (trie : Trie τ V) (t : τ) (key : List Char)
    (value : V t) :
    ((trie.Insert t key value).2 = InsertOutcome.returned false →
        (trie.Insert t key value).1 = trie) ∧
      ((trie.Remove key).2 = false → (trie.Remove key).1 = trie) := by
  constructor
  · cases key with
    | nil => simp [Trie.Insert]
    | cons ch rest =>
      simp only [Trie.Insert, List.isEmpty_cons, Bool.false_eq_true, if_false]
      intro hfalse
      rw [InsertLoop_false_unchanged t value _ (ch :: rest) 0 trie.root_ (by simp) (by simp)
        hfalse]
  · intro hfalse
    simp only [Trie.Remove] at hfalse ⊢
    rw [RemoveChildFromTrieNode_false_unchanged key trie.root_ hfalse]

/-- C20 on the trie that holds "ab": `Insert("ab", 9)` returns false and `Remove("abx")`
returns false, and each leaves the trie as it was. -/
theorem failed_call_leaves_trie_unchanged_ab :
    (trieAb.Insert Ty.int "ab".toList (9 : Int)).2 = InsertOutcome.returned false ∧
      (trieAb.Insert Ty.int "ab".toList (9 : Int)).1 = trieAb ∧
      (trieAb.Remove "abx".toList).2 = false ∧
      (trieAb.Remove "abx".toList).1 = trieAb :=
  ⟨rfl,
    (@failed_call_leaves_trie_unchanged Ty Ty.denote trieAb Ty.int "ab".toList (9 : Int)).1
      rfl,
    rfl,
    (@failed_call_leaves_trie_unchanged Ty Ty.denote trieAb Ty.int "abx".toList (9 : Int)).2
      rfl⟩

/-- Where the invariant of the doc comment of `Insert` holds, every node having its terminal
flag set exactly when it is a value-carrying node, `GetValue<T>(k)` succeeds if and only if
`k` is non-empty, its path resolves, and the end node is terminal and holds a value of type
`T`. -/
theorem GetValue_isSome_iff_of_flag_iff_value [DecidableEq τ] (trie : Trie τ V)
    (hinv : AllNodes (fun n => (n.is_end_ = true ↔ n.value_.isSome = true)) trie.root_)
    (t : τ) (key : List Char) :
    (trie.GetValue t key).isSome = true ↔
      key ≠ [] ∧ ∃ n, trie.root_.nodeAt key = some n ∧ n.is_end_ = true ∧
        ∃ v : V t, n.value_ = some ⟨t, v⟩ := by
  constructor
  · intro hsome
    obtain ⟨v, hv⟩ := Option.isSome_iff_exists.mp hsome
    obtain ⟨hkey, n, hn, hval⟩ := (GetValue_eq_some_iff trie t key v).mp hv
    have hflag := AllNodes_here n (AllNodes_nodeAt key _ n hinv hn)
    exact ⟨hkey, n, hn, hflag.mpr (by simp [hval]), v, hval⟩
  · rintro ⟨hkey, n, hn, _, v, hval⟩
    have hv := (GetValue_eq_some_iff trie t key v).mpr ⟨hkey, n, hn, hval⟩
    simp [hv]

end bustub
